import Mathlib

/-!
Verification of the in-memory user registry implemented in
`src/examples/sample_project/advanced.cpp` (classes `User`, `UserManager`
and `DataProcessor`).

Modelling choices (shallow embedding):
* C++ `std::string` is modelled as `List Char`.
* C++ `int` is modelled as `Int`; `std::stoi` keeps the explicit 32-bit
  range check that makes the original throw `out_of_range` (caught by the
  surrounding `catch (...)`).
* C++ `double` is modelled as `ℚ` (the average of integers is exact).
* `std::map<string, shared_ptr<User>>` is modelled as an association list
  with unique keys; no claim depends on the iteration order of the map.
* Console logging (`logError` / `logInfo`) is modelled as a returned
  notification `(LogLevel, String)`.
-/

/-- The space character, written numerically. -/
def spaceChar : Char := Char.ofNat 32

/-- Horizontal tab. -/
def tabChar : Char := Char.ofNat 9

/-- Line feed. -/
def lfChar : Char := Char.ofNat 10

/-- Vertical tab. -/
def vtChar : Char := Char.ofNat 11

/-- Form feed. -/
def ffChar : Char := Char.ofNat 12

/-- Carriage return. -/
def crChar : Char := Char.ofNat 13

/-- C locale `isspace`, as used by `std::stoi` when skipping leading
whitespace. -/
def isSpaceChar (c : Char) : Bool :=
  c = spaceChar || c = tabChar || c = lfChar || c = vtChar || c = ffChar ||
    c = crChar

/-- `s.find(c, start)` of `std::string`: index of the first occurrence of
`c` at position `start` or later, `none` for `npos`. -/
def findCharFrom : List Char → Char → Nat → Option Nat
  | [], _, _ => none
  | x :: xs, c, 0 =>
      if x = c then some 0 else (findCharFrom xs c 0).map (· + 1)
  | _ :: xs, c, n + 1 => (findCharFrom xs c n).map (· + 1)

/-- `s.find_first_not_of(c)` of `std::string`: index of the first character
different from `c`, `none` for `npos`. -/
def findFirstNotOf : List Char → Char → Option Nat
  | [], _ => none
  | x :: xs, c =>
      if x = c then (findFirstNotOf xs c).map (· + 1) else some 0

/-- `s.find_last_not_of(c)` of `std::string`: index of the last character
different from `c`, `none` for `npos`. -/
def findLastNotOf (s : List Char) (c : Char) : Option Nat :=
  match findFirstNotOf s.reverse c with
  | none => none
  | some i => some (s.length - 1 - i)

/-- `DataProcessor::trim`: strips leading and trailing space characters
using `find_first_not_of` / `find_last_not_of`, exactly as the source. -/
def trim (s : List Char) : List Char :=
  match findFirstNotOf s spaceChar with
  | none => []
  | some first =>
    match findLastNotOf s spaceChar with
    | none => []
    | some last => (s.drop first).take (last - first + 1)

/-- Value of a digit string, most significant digit first. -/
def digitsVal (ds : List Char) : Nat :=
  ds.foldl (fun a c => 10 * a + (c.toNat - 48)) 0

/-- Digit-run part of `std::stoi`: reads the longest run of base-10 digits,
fails when there is none, and fails with `out_of_range` when the signed
value does not fit a 32-bit `int`. -/
def stoiDigits (s : List Char) (sign : Int) : Option Int :=
  let ds := s.takeWhile Char.isDigit
  if ds.isEmpty then none
  else
    let v : Int := sign * (digitsVal ds : Int)
    if v < -2147483648 ∨ 2147483647 < v then none else some v

/-- `std::stoi` (base 10): skips leading whitespace, reads an optional
sign and then a digit run; `none` models both `invalid_argument` and
`out_of_range`, which the caller catches alike. -/
def stoi (s : List Char) : Option Int :=
  match s.dropWhile isSpaceChar with
  | [] => none
  | c :: cs =>
      if c = '-' then stoiDigits cs (-1)
      else if c = '+' then stoiDigits cs 1
      else stoiDigits (c :: cs) 1

/-- The `User` class: three data fields. -/
structure User where
  name : List Char
  age : Int
  email : List Char
deriving DecidableEq

/-- `User::validateName`. -/
def User.validateName (u : User) : Bool := !u.name.isEmpty

/-- `User::validateAge`. -/
def User.validateAge (u : User) : Bool :=
  decide (18 ≤ u.age) && decide (u.age ≤ 150)

/-- `User::validateEmail`: `email.find(at) != npos`. -/
def User.validateEmail (u : User) : Bool :=
  (findCharFrom u.email '@' 0).isSome

/-- `User::validate`. -/
def User.validate (u : User) : Bool :=
  u.validateName && u.validateAge && u.validateEmail

/-- `User::isAdult`. -/
def User.isAdult (u : User) : Bool := decide (18 ≤ u.age)

/-- Level of a console notification (`logInfo` / `logError`). -/
inductive LogLevel where
  | info : LogLevel
  | error : LogLevel
deriving DecidableEq

/-- The `UserManager` class: its `map<string, shared_ptr<User>>` member,
modelled as an association list from email key to stored record. -/
structure UserManager where
  users : List (List Char × User)
deriving DecidableEq

/-- `users.find(email)` on the map: the stored record for an exact key
match. -/
def findUser : List (List Char × User) → List Char → Option User
  | [], _ => none
  | p :: rest, e => if p.1 = e then some p.2 else findUser rest e

/-- `UserManager::addUser`: validity check, duplicate check, then
`users[email] = user`.  The returned triple is the C++ `bool` result, the
updated manager, and the emitted notification. -/
def addUser (m : UserManager) (u : User) :
    Bool × UserManager × (LogLevel × String) :=
  if !u.validate then
    (false, m, (LogLevel.error, "Invalid user data"))
  else if (findUser m.users u.email).isSome then
    (false, m, (LogLevel.error, "User already exists"))
  else
    (true, ⟨m.users ++ [(u.email, u)]⟩,
      (LogLevel.info, "User added successfully"))

/-- `UserManager::getUser`. -/
def getUser (m : UserManager) (email : List Char) : Option User :=
  findUser m.users email

/-- Loop body of `UserManager::getAdultUsers`: push `pair.second` whenever
`isAdult()` holds. -/
def adultsOf : List (List Char × User) → List User
  | [] => []
  | p :: rest => if p.2.isAdult then p.2 :: adultsOf rest else adultsOf rest

/-- `UserManager::getAdultUsers`. -/
def getAdultUsers (m : UserManager) : List User :=
  adultsOf m.users

/-- `UserManager::countUsers`. -/
def countUsers (m : UserManager) : Nat :=
  m.users.length

/-- `users.erase(it)` after a successful `find`: removes the (unique)
entry with the given key. -/
def eraseKey : List (List Char × User) → List Char → List (List Char × User)
  | [], _ => []
  | p :: rest, e => if p.1 = e then rest else p :: eraseKey rest e

/-- `UserManager::removeUser`. -/
def removeUser (m : UserManager) (email : List Char) : Bool × UserManager :=
  if (findUser m.users email).isSome then (true, ⟨eraseKey m.users email⟩)
  else (false, m)

/-- `UserManager::clear`. -/
def clearUsers (_ : UserManager) : UserManager := ⟨[]⟩

/-- `DataProcessor::parseUserData`: find the first two commas, cut the
three substrings, trim each, convert the middle one with `stoi`. -/
def parseUserData (data : List Char) : Option User :=
  match findCharFrom data ',' 0 with
  | none => none
  | some pos1 =>
    match findCharFrom data ',' (pos1 + 1) with
    | none => none
    | some pos2 =>
      let name := trim (data.take pos1)
      let ageStr := trim ((data.drop (pos1 + 1)).take (pos2 - pos1 - 1))
      let email := trim (data.drop (pos2 + 1))
      match stoi ageStr with
      | none => none
      | some age => some ⟨name, age, email⟩

/-- `DataProcessor::batchProcessUsers`: parse every line, keep the result
when parsing succeeded and the record validates. -/
def batchProcessUsers : List (List Char) → List User
  | [] => []
  | d :: rest =>
    match parseUserData d with
    | some u =>
        if u.validate then u :: batchProcessUsers rest
        else batchProcessUsers rest
    | none => batchProcessUsers rest

/-- `DataProcessor::calculateAverageAge`: `0.0` for an empty vector, else
the running `int` total divided by the size. -/
def calculateAverageAge (users : List User) : ℚ :=
  if users.isEmpty then 0
  else ((users.foldl (fun t u => t + u.age) 0 : Int) : ℚ) / (users.length : ℚ)

/-- `DataProcessor::filterByAgeRange`. -/
def filterByAgeRange (users : List User) (minAge maxAge : Int) : List User :=
  users.filter (fun u => decide (minAge ≤ u.age) && decide (u.age ≤ maxAge))

/-- The comparator handed to `std::sort` by `DataProcessor::sortByAge`. -/
def ageCmp (ascending : Bool) (a b : User) : Bool :=
  if ascending then decide (a.age < b.age) else decide (b.age < a.age)

/-- Insertion step of the sort model. -/
def insertByAge (cmp : User → User → Bool) (u : User) : List User → List User
  | [] => [u]
  | v :: rest =>
      if cmp u v then u :: v :: rest else v :: insertByAge cmp u rest

/-- Comparison sort used to model `std::sort` (whose result is any
sequence with no inversion with respect to the comparator). -/
def sortUsers (cmp : User → User → Bool) : List User → List User
  | [] => []
  | u :: rest => insertByAge cmp u (sortUsers cmp rest)

/-- `DataProcessor::sortByAge`. -/
def sortByAge (users : List User) (ascending : Bool) : List User :=
  sortUsers (ageCmp ascending) users

/-- Text before the first comma of a line. -/
def field1 (s : List Char) : List Char :=
  s.takeWhile (fun c => !(c = ','))

/-- Text after the first comma of a line. -/
def rest1 (s : List Char) : List Char :=
  (s.dropWhile (fun c => !(c = ','))).tail

/-- Text between the first and the second comma of a line. -/
def field2 (s : List Char) : List Char :=
  (rest1 s).takeWhile (fun c => !(c = ','))

/-- Text after the second comma of a line. -/
def field3 (s : List Char) : List Char :=
  ((rest1 s).dropWhile (fun c => !(c = ','))).tail

/-- The registry invariant: every stored key is its record's email and
keys are pairwise distinct. -/
def WellFormed (m : UserManager) : Prop :=
  (∀ p ∈ m.users, p.1 = p.2.email) ∧ (m.users.map Prod.fst).Nodup

/-- Manager states reachable from the empty registry through `addUser`,
`removeUser` and `clear` (records are treated as values: no mutation
through returned handles). -/
inductive Reachable : UserManager → Prop where
  | empty : Reachable ⟨[]⟩
  | add (m : UserManager) (u : User) :
      Reachable m → Reachable (addUser m u).2.1
  | remove (m : UserManager) (e : List Char) :
      Reachable m → Reachable (removeUser m e).2
  | clear (m : UserManager) : Reachable m → Reachable (clearUsers m)

/-! ## Helper lemmas -/

theorem findCharFrom_zero_eq_none {s : List Char} {c : Char} :
    findCharFrom s c 0 = none ↔ c ∉ s := by
  induction s with
  | nil => simp [findCharFrom]
  | cons x xs ih =>
    simp only [findCharFrom, List.mem_cons]
    by_cases hx : x = c
    · simp [hx]
    · rw [if_neg hx, Option.map_eq_none', ih]
      constructor
      · intro h hc
        rcases hc with hc | hc
        · exact hx hc.symm
        · exact h hc
      · intro h hc
        exact h (Or.inr hc)

theorem mem_adultsOf {l : List (List Char × User)} {u : User} :
    u ∈ adultsOf l ↔ u ∈ l.map Prod.snd ∧ 18 ≤ u.age := by
  induction l with
  | nil => simp [adultsOf]
  | cons p rest ih =>
    by_cases hp : p.2.isAdult
    · simp only [adultsOf, if_pos hp, List.mem_cons, List.map_cons, ih]
      constructor
      · rintro (rfl | ⟨h1, h2⟩)
        · exact ⟨Or.inl rfl, by simpa [User.isAdult] using hp⟩
        · exact ⟨Or.inr h1, h2⟩
      · rintro ⟨rfl | h1, h2⟩
        · exact Or.inl rfl
        · exact Or.inr ⟨h1, h2⟩
    · simp only [adultsOf, if_neg hp, List.map_cons, List.mem_cons, ih]
      constructor
      · rintro ⟨h1, h2⟩; exact ⟨Or.inr h1, h2⟩
      · rintro ⟨rfl | h1, h2⟩
        · exact absurd (by simpa [User.isAdult] using h2) hp
        · exact ⟨h1, h2⟩

theorem foldl_add_age (l : List User) (a : Int) :
    l.foldl (fun t u => t + u.age) a = a + (l.map User.age).sum := by
  induction l generalizing a with
  | nil => simp
  | cons u rest ih => simp [List.foldl_cons, ih, add_assoc]

theorem chain_insertByAge (le : User → User → Prop) (cmp : User → User → Bool)
    (h1 : ∀ a b, cmp a b = true → le a b)
    (h2 : ∀ a b, cmp a b = false → le b a)
    (u : User) (l : List User) (hl : List.Chain' le l) :
    List.Chain' le (insertByAge cmp u l) := by
  induction l with
  | nil => simp [insertByAge]
  | cons v rest ih =>
    rw [List.chain'_cons'] at hl
    obtain ⟨hv, hrest⟩ := hl
    by_cases hc : cmp u v
    · rw [insertByAge, if_pos hc]
      exact List.Chain'.cons (h1 _ _ hc) (List.chain'_cons'.2 ⟨hv, hrest⟩)
    · rw [insertByAge, if_neg hc]
      refine List.chain'_cons'.2 ⟨?_, ih hrest⟩
      intro y hy
      cases rest with
      | nil =>
        simp [insertByAge] at hy
        subst hy
        exact h2 _ _ (Bool.eq_false_iff.2 hc)
      | cons w rs =>
        by_cases hcw : cmp u w
        · rw [insertByAge, if_pos hcw] at hy
          simp at hy
          subst hy
          exact h2 _ _ (Bool.eq_false_iff.2 hc)
        · rw [insertByAge, if_neg hcw] at hy
          simp at hy
          subst hy
          exact hv w rfl

theorem chain_sortUsers (le : User → User → Prop) (cmp : User → User → Bool)
    (h1 : ∀ a b, cmp a b = true → le a b)
    (h2 : ∀ a b, cmp a b = false → le b a) :
    ∀ l : List User, List.Chain' le (sortUsers cmp l) := by
  intro l
  induction l with
  | nil => simp [sortUsers]
  | cons u rest ih => exact chain_insertByAge le cmp h1 h2 u _ ih

/-! ## Claim theorems -/

/-- C1: `r.validate()` returns true iff `r.name` is non-empty, `18 ≤ r.age
≤ 150`, and `r.email` contains the character `@`; the three predicates are
combined by logical AND. -/
theorem user_validate_iff (u : User) :
    u.validate = true ↔
      u.name ≠ [] ∧ (18 ≤ u.age ∧ u.age ≤ 150) ∧ '@' ∈ u.email := by
  have hmail : (findCharFrom u.email '@' 0).isSome = true ↔ '@' ∈ u.email := by
    rw [Option.isSome_iff_ne_none]
    constructor
    · intro h
      by_contra hm
      exact h (findCharFrom_zero_eq_none.2 hm)
    · intro h hn
      exact (findCharFrom_zero_eq_none.1 hn) h
  simp [User.validate, User.validateName, User.validateAge,
    User.validateEmail, Bool.and_eq_true, hmail, List.isEmpty_iff,
    and_assoc]

/-- C5: `batchProcessUsers` keeps exactly the parsed records whose
`validate()` holds, in input order; on the scenario-D list it keeps
exactly the David and Eve records in that order. -/
theorem batchProcessUsers_spec :
    (∀ lines : List (List Char), batchProcessUsers lines =
      (lines.filterMap parseUserData).filter (fun u => u.validate))
    ∧ batchProcessUsers ["David,28,david@example.com".toList,
        "BadLineNoCommas".toList, "Eve,35,eve@example.com".toList] =
      [⟨"David".toList, 28, "david@example.com".toList⟩,
       ⟨"Eve".toList, 35, "eve@example.com".toList⟩] := by
  constructor
  · intro lines
    induction lines with
    | nil => simp [batchProcessUsers]
    | cons d rest ih =>
      cases hd : parseUserData d with
      | none => simp [batchProcessUsers, hd, ih]
      | some u =>
        by_cases hu : u.validate
        · simp [batchProcessUsers, hd, hu, ih]
        · simp [batchProcessUsers, hd, hu, ih]
  · decide

/-- C6: `getAdultUsers` returns exactly the stored records with age at
least 18, and `isAdult()` is true iff age ≥ 18, independently of full
validity. -/
theorem getAdultUsers_spec (m : UserManager) (u : User) :
    (u ∈ getAdultUsers m ↔ u ∈ m.users.map Prod.snd ∧ 18 ≤ u.age)
    ∧ (u.isAdult = true ↔ 18 ≤ u.age) := by
  exact ⟨mem_adultsOf, by simp [User.isAdult]⟩

/-- C7: `calculateAverageAge` returns exactly 0 on the empty collection,
and the arithmetic mean of the ages on a non-empty collection. -/
theorem calculateAverageAge_spec :
    calculateAverageAge [] = 0 ∧
    ∀ l : List User, l ≠ [] →
      calculateAverageAge l =
        (((l.map User.age).sum : Int) : ℚ) / (l.length : ℚ) := by
  constructor
  · rfl
  · intro l hl
    rw [calculateAverageAge, if_neg (by simpa [List.isEmpty_iff] using hl)]
    rw [foldl_add_age]
    norm_num

/-- Witness for C7 at a concrete non-empty collection. -/
theorem calculateAverageAge_spec_witness :
    ([(⟨['A'], 20, ['a', '@', 'b']⟩ : User), ⟨['B'], 30, ['b', '@', 'c']⟩]
        ≠ ([] : List User))
    ∧ calculateAverageAge
        [⟨['A'], 20, ['a', '@', 'b']⟩, ⟨['B'], 30, ['b', '@', 'c']⟩] =
      ((([(⟨['A'], 20, ['a', '@', 'b']⟩ : User),
          ⟨['B'], 30, ['b', '@', 'c']⟩].map User.age).sum : Int) : ℚ) /
        (([(⟨['A'], 20, ['a', '@', 'b']⟩ : User),
          ⟨['B'], 30, ['b', '@', 'c']⟩].length : Nat) : ℚ) :=
  ⟨by decide, calculateAverageAge_spec.2 _ (by decide)⟩

/-- C8: `sortByAge` with `ascending = true` yields a sequence with each
age at most the next; with `ascending = false` each age at least the
next. -/
theorem sortByAge_sorted (l : List User) :
    List.Chain' (fun a b => a.age ≤ b.age) (sortByAge l true)
    ∧ List.Chain' (fun a b => b.age ≤ a.age) (sortByAge l false) := by
  constructor
  · exact chain_sortUsers _ (ageCmp true)
      (fun a b h => le_of_lt (by simpa [ageCmp] using h))
      (fun a b h => le_of_not_lt (by simpa [ageCmp] using h)) l
  · exact chain_sortUsers _ (ageCmp false)
      (fun a b h => le_of_lt (by simpa [ageCmp] using h))
      (fun a b h => le_of_not_lt (by simpa [ageCmp] using h)) l

theorem findUser_eq_none_iff {l : List (List Char × User)} {e : List Char} :
    findUser l e = none ↔ e ∉ l.map Prod.fst := by
  induction l with
  | nil => simp [findUser]
  | cons p rest ih =>
    simp only [findUser, List.map_cons, List.mem_cons]
    by_cases hp : p.1 = e
    · rw [if_pos hp]
      constructor
      · intro h
        exact absurd h (Option.some_ne_none _)
      · intro h
        exact absurd (Or.inl hp.symm) h
    · rw [if_neg hp, ih]
      constructor
      · intro h hc
        rcases hc with hc | hc
        · exact hp hc.symm
        · exact h hc
      · intro h hc
        exact h (Or.inr hc)

theorem findUser_append_single {l : List (List Char × User)} {e : List Char}
    (u : User) (h : findUser l e = none) :
    findUser (l ++ [(e, u)]) e = some u := by
  induction l with
  | nil => simp [findUser]
  | cons p rest ih =>
    simp only [findUser] at h ⊢
    by_cases hp : p.1 = e
    · rw [if_pos hp] at h; exact absurd h (by simp)
    · rw [if_neg hp] at h ⊢
      exact ih h

theorem eraseKey_sublist (l : List (List Char × User)) (e : List Char) :
    List.Sublist (eraseKey l e) l := by
  induction l with
  | nil => exact List.Sublist.refl []
  | cons p rest ih =>
    by_cases hp : p.1 = e
    · rw [eraseKey, if_pos hp]
      exact List.sublist_cons_self p rest
    · rw [eraseKey, if_neg hp]
      exact List.Sublist.cons₂ p ih

/-- C2: `addUser` returns false, leaves the mapping unchanged and emits an
error-level notification when the record fails `validate()` or its email
key is already stored; otherwise it stores the record under its email key,
emits an info-level notification and returns true.  Inserting the same
record twice leaves `count()` unchanged after the second call, which
returns false. -/
theorem addUser_spec (m : UserManager) (u : User) :
    ((u.validate = false ∨ findUser m.users u.email ≠ none) →
      (addUser m u).1 = false ∧ (addUser m u).2.1 = m ∧
        (addUser m u).2.2.1 = LogLevel.error)
    ∧ ((u.validate = true ∧ findUser m.users u.email = none) →
      (addUser m u).1 = true ∧
        (addUser m u).2.1.users = m.users ++ [(u.email, u)] ∧
        (addUser m u).2.2.1 = LogLevel.info)
    ∧ ((addUser (addUser m u).2.1 u).1 = false ∧
        countUsers (addUser (addUser m u).2.1 u).2.1 =
          countUsers (addUser m u).2.1) := by
  by_cases hv : u.validate
  · by_cases hf : findUser m.users u.email = none
    · refine ⟨?_, ?_, ?_⟩
      · rintro (h | h)
        · exact absurd hv (by simp [h])
        · exact absurd hf h
      · intro _
        simp [addUser, hv, hf]
      · have hstate : (addUser m u).2.1 = ⟨m.users ++ [(u.email, u)]⟩ := by
          simp [addUser, hv, hf]
        rw [hstate]
        have hdup : findUser (m.users ++ [(u.email, u)]) u.email = some u :=
          findUser_append_single u hf
        constructor
        · simp [addUser, hv, hdup]
        · simp [addUser, hv, hdup]
    · refine ⟨?_, ?_, ?_⟩
      · intro _
        simp [addUser, hv, Option.isSome_iff_ne_none.2 hf]
      · rintro ⟨_, h⟩
        exact absurd h hf
      · have hstate : (addUser m u).2.1 = m := by
          simp [addUser, hv, Option.isSome_iff_ne_none.2 hf]
        rw [hstate]
        constructor
        · simp [addUser, hv, Option.isSome_iff_ne_none.2 hf]
        · rw [hstate]
  · have hv' : u.validate = false := Bool.eq_false_iff.2 hv
    refine ⟨?_, ?_, ?_⟩
    · intro _
      simp [addUser, hv']
    · rintro ⟨h, _⟩
      exact absurd h (by simp [hv'])
    · have hstate : (addUser m u).2.1 = m := by simp [addUser, hv']
      rw [hstate]
      constructor
      · simp [addUser, hv']
      · rw [hstate]

/-- Witness for C2 at a concrete manager and record: a valid record is
stored under its email key with an info notification, and the repeated
insert fails with an unchanged count. -/
theorem addUser_spec_witness :
    ((User.validate ⟨['A'], 25, ['a', '@', 'b']⟩ = true ∧
        findUser (UserManager.mk []).users
          (User.email ⟨['A'], 25, ['a', '@', 'b']⟩) = none) →
      (addUser ⟨[]⟩ ⟨['A'], 25, ['a', '@', 'b']⟩).1 = true ∧
        (addUser ⟨[]⟩ ⟨['A'], 25, ['a', '@', 'b']⟩).2.1.users =
          (UserManager.mk []).users ++
            [(User.email ⟨['A'], 25, ['a', '@', 'b']⟩,
              ⟨['A'], 25, ['a', '@', 'b']⟩)] ∧
        (addUser ⟨[]⟩ ⟨['A'], 25, ['a', '@', 'b']⟩).2.2.1 = LogLevel.info)
    ∧ ((addUser (addUser ⟨[]⟩ ⟨['A'], 25, ['a', '@', 'b']⟩).2.1
          ⟨['A'], 25, ['a', '@', 'b']⟩).1 = false ∧
        countUsers (addUser (addUser ⟨[]⟩ ⟨['A'], 25, ['a', '@', 'b']⟩).2.1
            ⟨['A'], 25, ['a', '@', 'b']⟩).2.1 =
          countUsers (addUser ⟨[]⟩ ⟨['A'], 25, ['a', '@', 'b']⟩).2.1) :=
  ⟨(addUser_spec ⟨[]⟩ ⟨['A'], 25, ['a', '@', 'b']⟩).2.1,
    (addUser_spec ⟨[]⟩ ⟨['A'], 25, ['a', '@', 'b']⟩).2.2⟩

/-- C9: in every registry state reachable from the empty registry via
insert, remove and clear, every stored key equals its record's email and
keys are pairwise distinct. -/
theorem registry_invariant (m : UserManager) (h : Reachable m) :
    WellFormed m := by
  induction h with
  | empty => exact ⟨by simp, by simp⟩
  | add m u _ ih =>
    by_cases hv : u.validate
    · by_cases hf : findUser m.users u.email = none
      · have hstate : (addUser m u).2.1 = ⟨m.users ++ [(u.email, u)]⟩ := by
          simp [addUser, hv, hf]
        rw [hstate]
        refine ⟨?_, ?_⟩
        · intro p hp
          rcases List.mem_append.1 hp with hp | hp
          · exact ih.1 p hp
          · simp at hp
            subst hp
            rfl
        · rw [List.map_append, List.nodup_append]
          refine ⟨ih.2, by simp, ?_⟩
          intro e he
          simp only [List.map_cons, List.map_nil, List.mem_singleton]
          intro hc
          subst hc
          exact (findUser_eq_none_iff.1 hf) he
      · have hstate : (addUser m u).2.1 = m := by
          simp [addUser, hv, Option.isSome_iff_ne_none.2 hf]
        rw [hstate]; exact ih
    · have hstate : (addUser m u).2.1 = m := by
        simp [addUser, Bool.eq_false_iff.2 hv]
      rw [hstate]; exact ih
  | remove m e _ ih =>
    by_cases hf : findUser m.users e = none
    · have hstate : (removeUser m e).2 = m := by
        simp [removeUser, hf]
      rw [hstate]; exact ih
    · have hstate : (removeUser m e).2 = ⟨eraseKey m.users e⟩ := by
        simp [removeUser, Option.isSome_iff_ne_none.2 hf]
      rw [hstate]
      have hsub := eraseKey_sublist m.users e
      exact ⟨fun p hp => ih.1 p (hsub.subset hp),
        List.Nodup.sublist (hsub.map Prod.fst) ih.2⟩
  | clear m _ _ => exact ⟨by simp [clearUsers], by simp [clearUsers]⟩

/-- Witness for C9: the invariant holds at a concrete reachable state. -/
theorem registry_invariant_witness :
    WellFormed (addUser ⟨[]⟩ ⟨['A'], 25, ['a', '@', 'b']⟩).2.1 :=
  registry_invariant _ (Reachable.add ⟨[]⟩ _ Reachable.empty)

/-! ## Parser lemmas -/

theorem findCharFrom_append_cons {A : List Char} {c : Char} (hA : c ∉ A)
    (B : List Char) : findCharFrom (A ++ c :: B) c 0 = some A.length := by
  induction A with
  | nil => simp [findCharFrom]
  | cons x xs ih =>
    have hx : ¬ x = c := fun h => hA (by simp [h])
    rw [List.cons_append, findCharFrom, if_neg hx,
      ih (fun h => hA (List.mem_cons_of_mem _ h))]
    rfl

theorem findCharFrom_shift (s : List Char) (c : Char) (n : Nat) :
    findCharFrom s c n = (findCharFrom (s.drop n) c 0).map (· + n) := by
  induction n generalizing s with
  | zero =>
    rw [List.drop_zero]
    cases findCharFrom s c 0 <;> simp
  | succ k ih =>
    cases s with
    | nil => simp [findCharFrom]
    | cons x xs =>
      rw [List.drop_succ_cons, findCharFrom, ih xs, Option.map_map]
      cases findCharFrom (xs.drop k) c 0 <;> simp

theorem take_append_self (A B : List Char) : (A ++ B).take A.length = A := by
  induction A with
  | nil => rfl
  | cons x xs ih => simp [ih]

theorem drop_append_cons (A : List Char) (c : Char) (B : List Char) :
    (A ++ c :: B).drop (A.length + 1) = B := by
  induction A with
  | nil => rfl
  | cons x xs ih =>
    rw [List.cons_append, List.length_cons, List.drop_succ_cons]
    exact ih

theorem trim_subset (s : List Char) : trim s ⊆ s := by
  unfold trim
  split
  · simp
  · split
    · simp
    · intro c hc
      exact List.drop_subset _ _ (List.take_subset _ _ hc)

theorem comma_not_mem_field1 (s : List Char) : ',' ∉ field1 s := by
  intro h
  rw [field1] at h
  have := List.mem_takeWhile_imp h
  simp at this

theorem dropWhile_comma_cons {s : List Char} (h : ',' ∈ s) :
    ∃ t, s.dropWhile (fun c => !(c = ',')) = ',' :: t := by
  induction s with
  | nil => cases h
  | cons x xs ih =>
    by_cases hx : x = ','
    · subst hx
      exact ⟨xs, by rw [List.dropWhile_cons, if_neg (by simp)]⟩
    · have hm : ',' ∈ xs := by
        rcases List.mem_cons.1 h with h1 | h1
        · exact absurd h1.symm hx
        · exact h1
      obtain ⟨t, ht⟩ := ih hm
      exact ⟨t, by rw [List.dropWhile_cons, if_pos (by simp [hx])]; exact ht⟩

theorem split_first {s : List Char} (h : ',' ∈ s) :
    s = field1 s ++ ',' :: rest1 s := by
  obtain ⟨t, ht⟩ := dropWhile_comma_cons h
  have hr : rest1 s = t := by rw [rest1, ht]; rfl
  conv_lhs =>
    rw [← List.takeWhile_append_dropWhile (p := fun c => !(c = ',')) (l := s)]
  rw [field1, hr, ht]

theorem count_append_comma (A B : List Char) (hA : ',' ∉ A) :
    (A ++ ',' :: B).count ',' = B.count ',' + 1 := by
  rw [List.count_append, List.count_cons_self, List.count_eq_zero.2 hA]
  omega

/-- Core shape of `parseUserData` on a line split at its first two commas:
the text before the first comma and the text between the two commas are
comma-free, the text after the second comma is arbitrary. -/
theorem parseUserData_append (A C D : List Char)
    (hA : ',' ∉ A) (hC : ',' ∉ C) :
    parseUserData (A ++ ',' :: (C ++ ',' :: D)) =
      match stoi (trim C) with
      | none => none
      | some a => some ⟨trim A, a, trim D⟩ := by
  have h1 : findCharFrom (A ++ ',' :: (C ++ ',' :: D)) ',' 0 = some A.length :=
    findCharFrom_append_cons hA _
  have hdrop : (A ++ ',' :: (C ++ ',' :: D)).drop (A.length + 1) =
      C ++ ',' :: D := drop_append_cons A ',' _
  have h2 : findCharFrom (A ++ ',' :: (C ++ ',' :: D)) ',' (A.length + 1) =
      some (C.length + (A.length + 1)) := by
    rw [findCharFrom_shift, hdrop, findCharFrom_append_cons hC]
    rfl
  have htake : (A ++ ',' :: (C ++ ',' :: D)).take A.length = A :=
    take_append_self A _
  have hage : (C.length + (A.length + 1)) - A.length - 1 = C.length := by
    omega
  have hage2 : (C ++ ',' :: D).take C.length = C := take_append_self C _
  have hassoc : A ++ ',' :: (C ++ ',' :: D) = (A ++ ',' :: C) ++ ',' :: D := by
    rw [List.append_assoc]
    rfl
  have hemail : (A ++ ',' :: (C ++ ',' :: D)).drop
      (C.length + (A.length + 1) + 1) = D := by
    rw [hassoc]
    have hl : C.length + (A.length + 1) + 1 = (A ++ ',' :: C).length + 1 := by
      simp [List.length_append]
      omega
    rw [hl, drop_append_cons]
  simp only [parseUserData, h1, h2, htake, hdrop, hage, hage2, hemail]

theorem parseUserData_no_comma {s : List Char} (h : ',' ∉ s) :
    parseUserData s = none := by
  rw [parseUserData, findCharFrom_zero_eq_none.2 h]

theorem parseUserData_one_comma (A B : List Char) (hA : ',' ∉ A)
    (hB : ',' ∉ B) : parseUserData (A ++ ',' :: B) = none := by
  have h1 : findCharFrom (A ++ ',' :: B) ',' 0 = some A.length :=
    findCharFrom_append_cons hA B
  have h2 : findCharFrom (A ++ ',' :: B) ',' (A.length + 1) = none := by
    rw [findCharFrom_shift, drop_append_cons, findCharFrom_zero_eq_none.2 hB]
    rfl
  simp only [parseUserData, h1, h2]

theorem parse_two_commas {s : List Char} (h1 : ',' ∈ s)
    (h2 : ',' ∈ rest1 s) :
    parseUserData s =
      match stoi (trim (field2 s)) with
      | none => none
      | some a => some ⟨trim (field1 s), a, trim (field3 s)⟩ := by
  have hA : ',' ∉ field1 s := comma_not_mem_field1 s
  have hC : ',' ∉ field2 s := comma_not_mem_field1 (rest1 s)
  have hs : s = field1 s ++ ',' :: (field2 s ++ ',' :: field3 s) := by
    have ha := split_first h1
    have hb := split_first h2
    rw [hb] at ha
    exact ha
  conv_lhs => rw [hs]
  exact parseUserData_append _ _ _ hA hC

theorem two_commas_of_count {s : List Char} (h : 2 ≤ s.count ',') :
    ',' ∈ s ∧ ',' ∈ rest1 s := by
  by_cases h1 : ',' ∈ s
  · refine ⟨h1, ?_⟩
    by_contra hc
    have hs := split_first h1
    rw [hs, count_append_comma _ _ (comma_not_mem_field1 s),
      List.count_eq_zero.2 hc] at h
    omega
  · rw [List.count_eq_zero.2 h1] at h
    omega

theorem parse_some_shape {s : List Char} {u : User}
    (hu : parseUserData s = some u) :
    u.name = trim (field1 s) ∧ stoi (trim (field2 s)) = some u.age ∧
      u.email = trim (field3 s) := by
  by_cases h1 : ',' ∈ s
  · by_cases h2 : ',' ∈ rest1 s
    · rw [parse_two_commas h1 h2] at hu
      cases hst : stoi (trim (field2 s)) with
      | none => rw [hst] at hu; cases hu
      | some a =>
        rw [hst] at hu
        have := Option.some.inj hu
        subst this
        exact ⟨rfl, rfl, rfl⟩
    · have hs := split_first h1
      have hp : parseUserData s = none := by
        conv_lhs => rw [hs]
        exact parseUserData_one_comma _ _ (comma_not_mem_field1 s) h2
      rw [hp] at hu
      cases hu
  · rw [parseUserData_no_comma h1] at hu
    cases hu

/-- C3: `parse` returns none exactly when the line has fewer than two
commas or the trimmed age field is not accepted by `stoi`; a successful
parse returns the three fields cut at the first two commas, each trimmed,
with no `validate()` check — scenario C parses to an invalid record. -/
theorem parseUserData_spec :
    (∀ s : List Char,
      (parseUserData s = none ↔
        s.count ',' < 2 ∨ stoi (trim (field2 s)) = none)
      ∧ (∀ u, parseUserData s = some u →
          u.name = trim (field1 s) ∧
            stoi (trim (field2 s)) = some u.age ∧
            u.email = trim (field3 s)))
    ∧ parseUserData "Bob, 17 , bob@x.com".toList =
        some ⟨"Bob".toList, 17, "bob@x.com".toList⟩
    ∧ User.validate ⟨"Bob".toList, 17, "bob@x.com".toList⟩ = false := by
  refine ⟨?_, by decide, by decide⟩
  intro s
  by_cases h1 : ',' ∈ s
  · by_cases h2 : ',' ∈ rest1 s
    · have hcount : 2 ≤ s.count ',' := by
        have hs := split_first h1
        have hb := split_first h2
        conv_rhs => rw [hs, hb]
        rw [count_append_comma _ _ (comma_not_mem_field1 s),
          count_append_comma _ _ (comma_not_mem_field1 (rest1 s))]
        omega
      have hp := parse_two_commas h1 h2
      constructor
      · rw [hp]
        cases hst : stoi (trim (field2 s)) with
        | none => simp
        | some a =>
          simp only []
          constructor
          · intro hc
            exact absurd hc (Option.some_ne_none _)
          · rintro (hlt | hn)
            · omega
            · exact absurd hn (Option.some_ne_none _)
      · intro u hu
        exact parse_some_shape hu
    · have hs := split_first h1
      have hp : parseUserData s = none := by
        conv_lhs => rw [hs]
        exact parseUserData_one_comma _ _ (comma_not_mem_field1 s) h2
      have hcount : s.count ',' = 1 := by
        conv_lhs => rw [hs]
        rw [count_append_comma _ _ (comma_not_mem_field1 s),
          List.count_eq_zero.2 h2]
      constructor
      · simp [hp, hcount]
      · intro u hu
        rw [hp] at hu
        cases hu
  · have hp : parseUserData s = none := parseUserData_no_comma h1
    have hcount : s.count ',' = 0 := List.count_eq_zero.2 h1
    constructor
    · simp [hp, hcount]
    · intro u hu
      rw [hp] at hu
      cases hu

/-- Witness for C3: the successful-parse shape applied to the scenario-C
line, with the parse hypothesis discharged concretely. -/
theorem parseUserData_spec_witness :
    User.name ⟨"Bob".toList, 17, "bob@x.com".toList⟩ =
        trim (field1 "Bob, 17 , bob@x.com".toList) ∧
      stoi (trim (field2 "Bob, 17 , bob@x.com".toList)) =
        some (User.age ⟨"Bob".toList, 17, "bob@x.com".toList⟩) ∧
      User.email ⟨"Bob".toList, 17, "bob@x.com".toList⟩ =
        trim (field3 "Bob, 17 , bob@x.com".toList) :=
  (parseUserData_spec.1 "Bob, 17 , bob@x.com".toList).2
    ⟨"Bob".toList, 17, "bob@x.com".toList⟩ (by decide)

/-- C4 counterexample: the line `Bob,17,a,b@x.com`, whose email field
`a,b@x.com` contains the delimiter, parses successfully (the claim says
any line whose email field contains the delimiter fails to parse). -/
theorem parseUserData_email_comma_counterexample :
    parseUserData "Bob,17,a,b@x.com".toList =
        some ⟨"Bob".toList, 17, "a,b@x.com".toList⟩
      ∧ ',' ∈ "a,b@x.com".toList := by
  constructor
  · decide
  · decide

/-- C4 (amended): a name field containing the delimiter does break
parsing — no record returned by `parse` can carry such a name, because
the name is cut at the first delimiter — but an email field containing
the delimiter does not: everything after the second delimiter, trimmed,
becomes the email, commas included. -/
theorem parseUserData_delimiter_in_fields :
    (∀ (s : List Char) (u : User), parseUserData s = some u → ',' ∉ u.name)
    ∧ (∀ name ageStr email : List Char, ',' ∉ name → ',' ∉ ageStr →
        parseUserData (name ++ ',' :: (ageStr ++ ',' :: email)) =
          match stoi (trim ageStr) with
          | none => none
          | some a => some ⟨trim name, a, trim email⟩) := by
  constructor
  · intro s u hu hc
    have hname := (parse_some_shape hu).1
    rw [hname] at hc
    exact comma_not_mem_field1 s (trim_subset _ hc)
  · intro name ageStr email hn ha
    exact parseUserData_append name ageStr email hn ha

/-- Witness for C4's amended theorem: the record parsed from the
counterexample line has a comma-free name, and the concrete split parse
evaluates as stated. -/
theorem parseUserData_delimiter_in_fields_witness :
    ',' ∉ User.name ⟨"Bob".toList, 17, "a,b@x.com".toList⟩ :=
  parseUserData_delimiter_in_fields.1 "Bob,17,a,b@x.com".toList
    ⟨"Bob".toList, 17, "a,b@x.com".toList⟩ (by decide)

theorem isSpaceChar_isDigit_false {c : Char} (h : isSpaceChar c = true) :
    c.isDigit = false := by
  simp only [isSpaceChar, Bool.or_eq_true, decide_eq_true_eq] at h
  rcases h with ((((h | h) | h) | h) | h) | h <;> subst h <;> decide

theorem isDigit_not_space {c : Char} (h : c.isDigit = true) :
    isSpaceChar c = false := by
  cases hs : isSpaceChar c with
  | false => rfl
  | true =>
    rw [isSpaceChar_isDigit_false hs] at h
    cases h

theorem takeWhile_append_all {p : Char → Bool} {l₁ : List Char}
    (h : ∀ c ∈ l₁, p c = true) (l₂ : List Char) :
    (l₁ ++ l₂).takeWhile p = l₁ ++ l₂.takeWhile p := by
  induction l₁ with
  | nil => simp
  | cons x xs ih =>
    rw [List.cons_append, List.takeWhile_cons,
      if_pos (h x (List.mem_cons_self x xs)),
      ih (fun c hc => h c (List.mem_cons_of_mem _ hc)), List.cons_append]

theorem stoi_digit_run (ds rest : List Char) (hne : ds ≠ [])
    (hdig : ∀ c ∈ ds, c.isDigit = true)
    (hrest : rest.takeWhile Char.isDigit = [])
    (hrange : (digitsVal ds : Int) ≤ 2147483647) :
    stoi (ds ++ rest) = some (digitsVal ds : Int) := by
  cases ds with
  | nil => exact absurd rfl hne
  | cons d ds2 =>
    have hd : d.isDigit = true := hdig d (List.mem_cons_self d ds2)
    have hsp : isSpaceChar d = false := isDigit_not_space hd
    have hdw : ((d :: ds2) ++ rest).dropWhile isSpaceChar =
        d :: (ds2 ++ rest) := by
      rw [List.cons_append, List.dropWhile_cons, if_neg]
      rw [hsp]
      exact Bool.false_ne_true
    have htw : (d :: (ds2 ++ rest)).takeWhile Char.isDigit = d :: ds2 := by
      have hta := takeWhile_append_all hdig rest
      rw [List.cons_append] at hta
      rw [hta, hrest, List.append_nil]
    have hm : ¬ d = '-' := by
      intro he
      subst he
      exact absurd hd (by decide)
    have hp2 : ¬ d = '+' := by
      intro he
      subst he
      exact absurd hd (by decide)
    have hlt : ¬ ((digitsVal (d :: ds2) : Int) < -2147483648 ∨
        2147483647 < (digitsVal (d :: ds2) : Int)) := by
      push_neg
      constructor
      · have := Int.natCast_nonneg (digitsVal (d :: ds2))
        omega
      · exact hrange
    rw [stoi, hdw]
    simp only [if_neg hm, if_neg hp2, stoiDigits, htw, List.isEmpty_cons,
      Bool.false_eq_true, if_false, hlt, one_mul]

/-- C10: on a line with at least two commas whose trimmed age field is a
non-empty digit run followed by a non-digit tail, `parse` succeeds and
takes the value of the leading digit run as the age instead of rejecting
the field. -/
theorem parseUserData_age_digit_run :
    ∀ (s ds rest : List Char),
      2 ≤ s.count ',' →
      trim (field2 s) = ds ++ rest →
      ds ≠ [] →
      (∀ c ∈ ds, c.isDigit = true) →
      rest.takeWhile Char.isDigit = [] →
      (digitsVal ds : Int) ≤ 2147483647 →
      parseUserData s =
        some ⟨trim (field1 s), (digitsVal ds : Int), trim (field3 s)⟩ := by
  intro s ds rest hcount htrim hne hdig hrest hrange
  obtain ⟨h1, h2⟩ := two_commas_of_count hcount
  rw [parse_two_commas h1 h2, htrim,
    stoi_digit_run ds rest hne hdig hrest hrange]

/-- Witness for C10: the line `Bob, 17x, bob@x.com` parses with age 17,
each hypothesis discharged concretely. -/
theorem parseUserData_age_digit_run_witness :
    (2 ≤ ("Bob, 17x, bob@x.com".toList).count ',' ∧
      trim (field2 "Bob, 17x, bob@x.com".toList) = ['1', '7'] ++ ['x'] ∧
      (['1', '7'] : List Char) ≠ [] ∧
      (digitsVal ['1', '7'] : Int) ≤ 2147483647) ∧
    parseUserData "Bob, 17x, bob@x.com".toList =
      some ⟨trim (field1 "Bob, 17x, bob@x.com".toList),
        (digitsVal ['1', '7'] : Int),
        trim (field3 "Bob, 17x, bob@x.com".toList)⟩ :=
  ⟨⟨by decide, by decide, by decide, by decide⟩,
    parseUserData_age_digit_run "Bob, 17x, bob@x.com".toList ['1', '7'] ['x']
      (by decide) (by decide) (by decide) (by decide) (by decide) (by decide)⟩
